import Mathlib

/-!
Verification of the duplicate-file finder in HDCleaner.py.

The program is embedded shallowly: pandas dataframes become lists of records,
file paths become lists of characters, the filesystem and the MD5 primitive
become function parameters, and the fallible hasher returns an Option.
Each definition mirrors one Python function of src/HDCleaner.py; the few
definitions written from the specification text instead of the code are
marked as such in their doc comments.
-/

namespace HDC

/-- A file path, the character list of the Python string. -/
abbrev FPath : Type := List Char

/-- A content digest, the character list of the hex digest string. -/
abbrev Digest : Type := List Char

/-- One dataframe record as consumed by the duplicate finder: the columns
filepath, size and type built by main_pandas.  The size is absent when the
file could not be stat-ed; the type column holds the visibility string. -/
structure Row where
  filepath : FPath
  size : Option Nat
  ftype : List Char
deriving DecidableEq

/-- One row of the dataframe returned by find_issues_pandas after the
hashMD5 column is dropped: the group size and the array of unique member
filepaths. -/
structure DupGroup where
  size : Option Nat
  filepaths : List FPath
deriving DecidableEq

/-- One row of the dataframe returned by find_issues_master_client: the
client columns filepath, size, type, hashMD5 plus the joined master
filepath (suffixed filepath_master by the pandas merge). -/
structure MatchRow where
  filepath : FPath
  size : Option Nat
  ftype : List Char
  hashMD5 : Option Digest
  filepath_master : FPath
deriving DecidableEq

/-! ## split_path and file_visibility (HDCleaner.py lines 37-72)

The Python code builds path components with a while loop around
os.path.split.  os.path.split (posixpath) computes
i = p.rfind(sep) + 1; head, tail = p[:i], p[i:] and strips trailing
slashes from a head that is neither empty nor all slashes. -/

/-- The tail component of os.path.split: the maximal slash-free suffix. -/
def pyTail (p : FPath) : FPath :=
  (p.reverse.takeWhile (fun c => !(c == '/'))).reverse

/-- The raw head of os.path.split: everything up to and including the last
slash, before trailing slashes are stripped. -/
def pyHeadRaw (p : FPath) : FPath :=
  (p.reverse.dropWhile (fun c => !(c == '/'))).reverse

/-- The head component of os.path.split: the raw head with trailing slashes
stripped when it is neither empty nor made of slashes only. -/
def pyHead (p : FPath) : FPath :=
  if (pyHeadRaw p).any (fun c => !(c == '/')) then
    ((pyHeadRaw p).reverse.dropWhile (fun c => c == '/')).reverse
  else pyHeadRaw p

/-- os.path.split as used by split_path. -/
def pySplit (p : FPath) : FPath × FPath :=
  (pyHead p, pyTail p)

/-- The while loop of split_path (lines 42-53).  The loop repeatedly
replaces the path by the head of os.path.split, accumulating tails at the
front, and stops at the absolute-path or relative-path sentinel.  The head
gets strictly shorter on every non-sentinel iteration (proved below), so a
fuel of length + 1 never runs out; the fuel argument only makes the
recursion structural. -/
def split_path_loop : Nat → FPath → List FPath → List FPath
  | 0, _, acc => acc
  | fuel+1, path, acc =>
    if (pySplit path).1 = path then (pySplit path).1 :: acc
    else if (pySplit path).2 = path then (pySplit path).2 :: acc
    else split_path_loop fuel (pySplit path).1 ((pySplit path).2 :: acc)

/-- split_path (lines 37-54): split a path into its folder components. -/
def split_path (path : FPath) : List FPath :=
  split_path_loop (path.length + 1) path []

/-- The for loop of file_visibility (lines 64-72) over the already reversed
component list: the first component matching a rule decides the result,
and the fallthrough returns the string visible. -/
def visibilityLoop : List FPath → List Char
  | [] => "visible".toList
  | part :: rest =>
    if ".DS_Store".toList.isPrefixOf part then "DS_Store".toList
    else if ".git".toList.isPrefixOf part then "git".toList
    else if ['.'].isPrefixOf part then "hidden".toList
    else visibilityLoop rest

/-- file_visibility (lines 56-72): classify a path by scanning its
components from the leaf (parts[::-1]) toward the root.  The returned
strings correspond to the visibility enum of the specification:
DS_Store is SystemMetadata, git is VCSMetadata, hidden is Hidden and
visible is Visible. -/
def file_visibility (path : FPath) : List Char :=
  visibilityLoop (split_path path).reverse

/-- The per-component rule of file_visibility, with the three startswith
tests in the order of the source.  Returns none when no rule matches. -/
def componentRule (part : FPath) : Option (List Char) :=
  if ".DS_Store".toList.isPrefixOf part then some "DS_Store".toList
  else if ".git".toList.isPrefixOf part then some "git".toList
  else if ['.'].isPrefixOf part then some "hidden".toList
  else none

/-! ## hash_MD5 (lines 106-120)

The filesystem is a parameter mapping a path to either its byte content or
a read error; the MD5 primitive of hashlib is an abstract digest function.
The Python code streams the file in 4096-byte chunks and folds them into
the hasher, which computes the digest of the concatenated content, so the
model applies the digest function to the whole content.  On
FileNotFoundError or OSError the Python function prints the error and
returns None; the second component collects such printed diagnostics. -/

/-- hash_MD5: returns the digest of the file content, or none plus a
printed diagnostic when the read fails.  The function is total: no
exception escapes to the caller. -/
def hash_MD5 (md5 : List Nat → Digest) (fs : FPath → Except (List Char) (List Nat))
    (path : FPath) : Option Digest × List (List Char) :=
  match fs path with
  | .error e => (none, [e])
  | .ok content => (some (md5 content), [])

/-! ## find_issues_pandas (lines 122-150)

The dataframe is a list of Rows; the hash column is a parameter
h : FPath -> Option Digest (the first component of hash_MD5 over some
filesystem).  pandas groupby drops rows whose group key is NaN, and the
aggregations nunique and unique count and collect the distinct filepaths
of a group; distinctness is modelled with List.dedup.  No stated property
depends on the order of groups, so group keys are kept in order of
appearance and the final descending sort by size is an insertion sort. -/

/-- The string constant for the visible type. -/
def visibleStr : List Char := "visible".toList

/-- Line 127: keep only the rows whose type column equals visible. -/
def fip_visible (df : List Row) : List Row :=
  df.filter (fun r => decide (r.ftype = visibleStr))

/-- The rows of a dataframe whose size equals the given present size. -/
def sizeBucket (df : List Row) (s : Nat) : List Row :=
  df.filter (fun r => decide (r.size = some s))

/-- Lines 129-132: the nunique aggregation of filepath grouped by size,
for one size value: the number of distinct filepaths in the size bucket. -/
def nuniqueSize (df : List Row) (s : Nat) : Nat :=
  (((sizeBucket df s).map (fun r => r.filepath)).dedup).length

/-- Line 135: the filter nunique_size > 1.  A row whose size is absent is
dropped here: groupby excludes the NaN size group, so the left merge gives
such rows a NaN nunique_size and the comparison with 1 is false. -/
def bigBucketPred (df : List Row) (r : Row) : Bool :=
  match r.size with
  | none => false
  | some s => decide (1 < nuniqueSize df s)

/-- Lines 129-136: the rows surviving the singleton-size-bucket prefilter,
computed over the visible rows. -/
def fip_sizeFiltered (df : List Row) : List Row :=
  (fip_visible df).filter (bigBucketPred (fip_visible df))

/-- Lines 137-140: apply hash_MD5 to every surviving row, keeping the row
together with its new hashMD5 column. -/
def fip_hashed (h : FPath → Option Digest) (df : List Row) : List (Row × Option Digest) :=
  (fip_sizeFiltered df).map (fun r => (r, h r.filepath))

/-- The group key (size, hashMD5) of a hashed row. -/
def groupKeyOf (p : Row × Option Digest) : Option Nat × Option Digest :=
  (p.1.size, p.2)

/-- The unique aggregation of filepath for the group of one key: the
distinct filepaths of the rows carrying that key. -/
def membersOf (hashed : List (Row × Option Digest)) (k : Option Nat × Option Digest) :
    List FPath :=
  (((hashed.filter (fun p => decide (groupKeyOf p = k))).map (fun p => p.1.filepath)).dedup)

/-- Lines 142-144: groupby (size, hashMD5) with the unique aggregation of
filepath.  Rows whose hashMD5 is None (or whose size is absent) belong to
no group: pandas drops NaN group keys. -/
def groupRows (hashed : List (Row × Option Digest)) :
    List ((Option Nat × Option Digest) × List FPath) :=
  (((hashed.filter (fun p => p.1.size.isSome && p.2.isSome)).map groupKeyOf).dedup).map
    (fun k => (k, membersOf hashed k))

/-- Descending insertion by the size component of the group key (all kept
keys carry a present size, so the default of getD is never compared). -/
def insertBySizeDesc (g : (Option Nat × Option Digest) × List FPath) :
    List ((Option Nat × Option Digest) × List FPath) →
    List ((Option Nat × Option Digest) × List FPath)
  | [] => [g]
  | b :: l => if b.1.1.getD 0 ≤ g.1.1.getD 0 then g :: b :: l else b :: insertBySizeDesc g l

/-- Line 147: sort_values by size, descending. -/
def sortBySizeDesc : List ((Option Nat × Option Digest) × List FPath) →
    List ((Option Nat × Option Digest) × List FPath)
  | [] => []
  | g :: l => insertBySizeDesc g (sortBySizeDesc l)

/-- Lines 142-149: group the hashed rows by (size, hashMD5), keep the
groups with more than one distinct filepath, sort by descending size and
drop the hashMD5 column. -/
def emitGroups (hashed : List (Row × Option Digest)) : List DupGroup :=
  (sortBySizeDesc ((groupRows hashed).filter (fun g => decide (1 < g.2.length)))).map
    (fun g => { size := g.1.1, filepaths := g.2 })

/-- find_issues_pandas (lines 122-150): the sets of files that may be the
same.  This is the find_duplicates operation of the specification; the
source function takes no min_size or only_visible flag. -/
def find_issues_pandas (h : FPath → Option Digest) (dataframe : List Row) : List DupGroup :=
  emitGroups (fip_hashed h dataframe)

/-! ## find_issues_master_client (lines 152-201) -/

/-- The pandas comparison size >= min_size: false for an absent size. -/
def sizeAtLeast (sz : Option Nat) (m : Nat) : Bool :=
  match sz with
  | none => false
  | some s => decide (m ≤ s)

/-- Lines 169-170: drop the rows below min_size (and the rows without a
size, for which the pandas comparison is false). -/
def rec_minsize (df : List Row) (min_size : Nat) : List Row :=
  df.filter (fun r => sizeAtLeast r.size min_size)

/-- Lines 169-175: the min_size filter followed by the visibility filter
when only_visible is set. -/
def rec_filtered (df : List Row) (min_size : Nat) (only_visible : Bool) : List Row :=
  if only_visible then
    (rec_minsize df min_size).filter (fun r => decide (r.ftype = visibleStr))
  else rec_minsize df min_size

/-- Lines 185-186: attach the hashMD5 column. -/
def hashPairs (h : FPath → Option Digest) (df : List Row) : List (Row × Option Digest) :=
  df.map (fun r => (r, h r.filepath))

/-- Lines 188-190: drop the rows whose hashMD5 is null. -/
def readable (l : List (Row × Option Digest)) : List (Row × Option Digest) :=
  l.filter (fun p => p.2.isSome)

/-- The filtered, hashed and readable rows of one side, before the
common-sizes prefilter.  This is the surviving set the specification
quantifies over. -/
def rec_hashed (h : FPath → Option Digest) (df : List Row) (min_size : Nat)
    (only_visible : Bool) : List (Row × Option Digest) :=
  readable (hashPairs h (rec_filtered df min_size only_visible))

/-- One row of the inner merge on (size, hashMD5): the client columns are
kept and the master contributes its filepath. -/
def mkMatch (c m : Row × Option Digest) : MatchRow :=
  { filepath := c.1.filepath, size := c.1.size, ftype := c.1.ftype,
    hashMD5 := c.2, filepath_master := m.1.filepath }

/-- Lines 192-200: the inner merge of the client rows with the master rows
on (size, hashMD5): every client row is paired with every master row
sharing its key, in order. -/
def joinRows (hc hm : List (Row × Option Digest)) : List MatchRow :=
  hc.flatMap (fun c =>
    (hm.filter (fun m => decide (m.1.size = c.1.size ∧ m.2 = c.2))).map (fun m => mkMatch c m))

/-- Lines 178-180: the sizes present on both sides, as the intersection of
the distinct size values of the two filtered dataframes. -/
def common_sizes (dfm dfc : List Row) : List (Option Nat) :=
  ((dfm.map (fun r => r.size)).dedup).filter (fun s => decide (s ∈ dfc.map (fun r => r.size)))

/-- Lines 162-164: the intersection of the filepath values of the two raw
dataframes. -/
def sharedPaths (dm dc : List Row) : List FPath :=
  ((dm.map (fun r => r.filepath)).dedup).filter
    (fun p => decide (p ∈ dc.map (fun r => r.filepath)))

/-- The message of the exception raised on line 166. -/
def errMsg : List Char := "Master and client must not contain the same files".toList

/-- find_issues_master_client (lines 152-201): reconcile a master and a
client dataframe.  The disjointness of the filepath sets is checked first,
before any filtering or hashing; then both sides are filtered by min_size
and visibility, restricted to the common sizes, hashed, cleared of
unreadable rows, and inner-joined on (size, hashMD5). -/
def find_issues_master_client (h : FPath → Option Digest)
    (dataframe_master dataframe_client : List Row) (min_size : Nat) (only_visible : Bool) :
    Except (List Char) (List MatchRow) :=
  if (sharedPaths dataframe_master dataframe_client).length ≠ 0 then .error errMsg
  else
    .ok (joinRows
      (readable (hashPairs h ((rec_filtered dataframe_client min_size only_visible).filter
        (fun r => decide (r.size ∈ common_sizes
          (rec_filtered dataframe_master min_size only_visible)
          (rec_filtered dataframe_client min_size only_visible))))))
      (readable (hashPairs h ((rec_filtered dataframe_master min_size only_visible).filter
        (fun r => decide (r.size ∈ common_sizes
          (rec_filtered dataframe_master min_size only_visible)
          (rec_filtered dataframe_client min_size only_visible)))))))

/-! ## Baselines written from the specification text

These two definitions are not translations of the source: they render the
no-prefilter baselines the specification asks to compare against, for the
refinement claim about the two size prefilters. -/

/-- Modelled from the spec: the baseline duplicate finder that hashes all
eligible records (visible type, present size) without the singleton-size-
bucket prefilter, then groups and emits exactly as the source does. -/
def find_duplicates_baseline (h : FPath → Option Digest) (df : List Row) : List DupGroup :=
  emitGroups ((df.filter (fun r => decide (r.ftype = visibleStr) && r.size.isSome)).map
    (fun r => (r, h r.filepath)))

/-- Modelled from the spec: the baseline reconciler that hashes every
filtered record on both sides without the common-sizes prefilter and
joins on (size, hashMD5). -/
def reconcile_baseline (h : FPath → Option Digest) (dm dc : List Row) (min_size : Nat)
    (only_visible : Bool) : List MatchRow :=
  joinRows (rec_hashed h dc min_size only_visible) (rec_hashed h dm min_size only_visible)

/-- Modelled from the spec: the record filter claimed for find_duplicates,
with the flags min_size and only_visible: visible type when only_visible
is set, present size, size at least min_size. -/
def spec_filter (df : List Row) (min_size : Nat) (only_visible : Bool) : List Row :=
  df.filter (fun r =>
    (if only_visible then decide (r.ftype = visibleStr) else true) && sizeAtLeast r.size min_size)

/-- Modelled from the spec: the claimed find_duplicates pipeline with the
flags applied up front, followed by the same bucket prefilter, hashing,
grouping and emission as the source. -/
def find_duplicates_spec (h : FPath → Option Digest) (df : List Row) (min_size : Nat)
    (only_visible : Bool) : List DupGroup :=
  emitGroups (((spec_filter df min_size only_visible).filter
    (bigBucketPred (spec_filter df min_size only_visible))).map (fun r => (r, h r.filepath)))

/-! ## main_pandas (lines 85-104)

The enumeration list_files is an external filesystem collaborator; the
catalog builder receives its (filepath, size) pairs.  The presentation
columns extension and level_XX are outside the Row model (the
specification excludes them).  pandas drop_duplicates keeps the first
occurrence of each filepath (keep defaults to first). -/

/-- drop_duplicates on the filepath column with an accumulator of already
seen filepaths: the first record of each filepath is retained. -/
def drop_duplicates_aux (seen : List FPath) :
    List (FPath × Option Nat) → List (FPath × Option Nat)
  | [] => []
  | a :: l =>
    if a.1 ∈ seen then drop_duplicates_aux seen l
    else a :: drop_duplicates_aux (a.1 :: seen) l

/-- Line 95: df.drop_duplicates on filepath, keeping the first record of
each filepath. -/
def drop_duplicates (l : List (FPath × Option Nat)) : List (FPath × Option Nat) :=
  drop_duplicates_aux [] l

/-- A catalog record from one enumerated (filepath, size) pair: the type
column applies file_visibility (line 96). -/
def mkRow (x : FPath × Option Nat) : Row :=
  { filepath := x.1, size := x.2, ftype := file_visibility x.1 }

/-- main_pandas (lines 85-104) restricted to the columns the algorithms
read: build the rows from the enumerated files, de-duplicate by filepath
and derive the type column. -/
def main_pandas (files : List (FPath × Option Nat)) : List Row :=
  (drop_duplicates files).map mkRow

/-! ## Concrete fixtures used by the witness and counterexample theorems -/

def pA : FPath := "a".toList

def pB : FPath := "b".toList

def pM : FPath := "m".toList

def pC : FPath := "c".toList

def digD : Digest := "d".toList

/-- A hash oracle giving every path the same digest. -/
def hConst : FPath → Option Digest := fun _ => some digD

def rowA : Row := { filepath := pA, size := some 1, ftype := visibleStr }

def rowB : Row := { filepath := pB, size := some 1, ftype := visibleStr }

def rowM : Row := { filepath := pM, size := some 1, ftype := visibleStr }

def rowM2 : Row := { filepath := pM, size := some 2, ftype := visibleStr }

def rowC : Row := { filepath := pC, size := some 1, ftype := visibleStr }

def dfPair : List Row := [rowA, rowB]

def dmOne : List Row := [rowM]

def dcOne : List Row := [rowC]

def dcShared : List Row := [rowM2]

def grpAB : DupGroup := { size := some 1, filepaths := [pA, pB] }

def matchCM : MatchRow :=
  { filepath := pC, size := some 1, ftype := visibleStr, hashMD5 := some digD,
    filepath_master := pM }

/-- A constant digest primitive for the hasher witness. -/
def md5Const : List Nat → Digest := fun _ => digD

/-- A one-file filesystem for the hasher witness: pA is readable, every
other path fails to read. -/
def fsOne : FPath → Except (List Char) (List Nat) :=
  fun p => if p = pA then .ok [1, 2] else .error "boom".toList

/-! ## Lemmas about split_path and the visibility loop -/

theorem pyHead_length_le (p : FPath) : (pyHead p).length ≤ (pyHeadRaw p).length := by
  unfold pyHead
  split
  · calc ((pyHeadRaw p).reverse.dropWhile (fun c => c == '/')).reverse.length
        = ((pyHeadRaw p).reverse.dropWhile (fun c => c == '/')).length :=
          List.length_reverse _
      _ ≤ (pyHeadRaw p).reverse.length := (List.dropWhile_sublist _).length_le
      _ = (pyHeadRaw p).length := List.length_reverse _
  · exact le_refl _

theorem pyTail_add_pyHeadRaw_length (p : FPath) :
    (pyTail p).length + (pyHeadRaw p).length = p.length := by
  unfold pyTail pyHeadRaw
  rw [List.length_reverse, List.length_reverse]
  have h := congrArg List.length
    (List.takeWhile_append_dropWhile (fun c => !(c == '/')) p.reverse)
  rw [List.length_append, List.length_reverse] at h
  exact h

/-- On a non-sentinel iteration of the split_path loop, the head component
is strictly shorter than the path, so the loop terminates within length
iterations. -/
theorem pyHead_length_lt (p : FPath) (h1 : pyHead p ≠ p) (h2 : pyTail p ≠ p) :
    (pyHead p).length < p.length := by
  by_cases ht : pyTail p = []
  · have hpne : p ≠ [] := fun hp => h2 (by rw [ht, hp])
    have hrevne : p.reverse ≠ [] := by simpa [List.reverse_eq_nil_iff] using hpne
    obtain ⟨c, r', hr⟩ : ∃ c r', p.reverse = c :: r' := by
      cases hrev : p.reverse with
      | nil => exact absurd hrev hrevne
      | cons c r' => exact ⟨c, r', rfl⟩
    have htw : p.reverse.takeWhile (fun c => !(c == '/')) = [] := by
      have h' := congrArg List.reverse ht
      simpa [pyTail] using h'
    have hc : (c == '/') = true := by
      by_contra hcc
      rw [hr, List.takeWhile_cons, if_pos (by simp [hcc])] at htw
      exact List.noConfusion htw
    have hraw : pyHeadRaw p = p := by
      unfold pyHeadRaw
      rw [hr, List.dropWhile_cons_of_neg (by simp [hc]), ← hr, List.reverse_reverse]
    by_cases hany : ((pyHeadRaw p).any (fun c => !(c == '/'))) = true
    · have hph : pyHead p = ((pyHeadRaw p).reverse.dropWhile (fun c => c == '/')).reverse := by
        unfold pyHead
        rw [if_pos hany]
      have hdw : (List.dropWhile (fun x => x == '/') r').length ≤ r'.length :=
        (List.dropWhile_sublist _).length_le
      have hpl : p.length = r'.length + 1 := by
        rw [← List.length_reverse p, hr]
        simp
      have hstep : List.dropWhile (fun x => x == '/') (c :: r') =
          List.dropWhile (fun x => x == '/') r' := List.dropWhile_cons_of_pos hc
      rw [hph, hraw, hr, hstep, List.length_reverse]
      omega
    · have hph : pyHead p = pyHeadRaw p := by
        unfold pyHead
        rw [if_neg hany]
      exact absurd (hph.trans hraw) h1
  · have h0 : 0 < (pyTail p).length := List.length_pos.mpr ht
    have hsum := pyTail_add_pyHeadRaw_length p
    have hle := pyHead_length_le p
    omega

/-- The result of the split_path loop does not depend on the fuel as soon
as the fuel exceeds the path length: the fuel of split_path is always
sufficient. -/
theorem split_path_loop_congr :
    ∀ (fuel fuel' : Nat) (p : FPath) (acc : List FPath), p.length < fuel → p.length < fuel' →
      split_path_loop fuel p acc = split_path_loop fuel' p acc := by
  intro fuel
  induction fuel with
  | zero => exact fun fuel' p acc h _ => absurd h (Nat.not_lt_zero _)
  | succ n ih =>
    intro fuel' p acc h h'
    cases fuel' with
    | zero => exact absurd h' (Nat.not_lt_zero _)
    | succ m =>
      unfold split_path_loop
      by_cases hc1 : (pySplit p).1 = p
      · rw [if_pos hc1, if_pos hc1]
      · rw [if_neg hc1, if_neg hc1]
        by_cases hc2 : (pySplit p).2 = p
        · rw [if_pos hc2, if_pos hc2]
        · rw [if_neg hc2, if_neg hc2]
          have hlt : ((pySplit p).1).length < p.length := pyHead_length_lt p hc1 hc2
          exact ih m (pySplit p).1 ((pySplit p).2 :: acc) (by omega) (by omega)

theorem visibilityLoop_cons_none (c : FPath) (rest : List FPath)
    (h : componentRule c = none) : visibilityLoop (c :: rest) = visibilityLoop rest := by
  unfold componentRule at h
  unfold visibilityLoop
  by_cases h1 : (".DS_Store".toList.isPrefixOf c) = true
  · rw [if_pos h1] at h
    exact Option.noConfusion h
  · rw [if_neg h1] at h ⊢
    by_cases h2 : (".git".toList.isPrefixOf c) = true
    · rw [if_pos h2] at h
      exact Option.noConfusion h
    · rw [if_neg h2] at h ⊢
      by_cases h3 : ((['.'] : List Char).isPrefixOf c) = true
      · rw [if_pos h3] at h
        exact Option.noConfusion h
      · rw [if_neg h3]
        cases rest <;> rfl

theorem visibilityLoop_cons_some (c : FPath) (rest : List FPath) (v : List Char)
    (h : componentRule c = some v) : visibilityLoop (c :: rest) = v := by
  unfold componentRule at h
  unfold visibilityLoop
  by_cases h1 : (".DS_Store".toList.isPrefixOf c) = true
  · rw [if_pos h1] at h ⊢
    exact Option.some.inj h
  · rw [if_neg h1] at h ⊢
    by_cases h2 : (".git".toList.isPrefixOf c) = true
    · rw [if_pos h2] at h ⊢
      exact Option.some.inj h
    · rw [if_neg h2] at h ⊢
      by_cases h3 : ((['.'] : List Char).isPrefixOf c) = true
      · rw [if_pos h3] at h ⊢
        exact Option.some.inj h
      · rw [if_neg h3] at h
        exact Option.noConfusion h

theorem visibilityLoop_append_none (l rest : List FPath)
    (h : ∀ c ∈ l, componentRule c = none) :
    visibilityLoop (l ++ rest) = visibilityLoop rest := by
  induction l with
  | nil => rfl
  | cons c t ih =>
    rw [List.cons_append, visibilityLoop_cons_none c (t ++ rest) (h c (by simp))]
    exact ih (fun x hx => h x (by simp [hx]))

theorem visibilityLoop_eq_visible (l : List FPath)
    (h : ∀ c ∈ l, componentRule c = none) : visibilityLoop l = "visible".toList := by
  have h' := visibilityLoop_append_none l [] h
  simpa using h'

/-! ## Generic list helpers -/

theorem one_lt_length_of_two_mem {l : List FPath} {a b : FPath}
    (ha : a ∈ l) (hb : b ∈ l) (hab : a ≠ b) : 1 < l.length := by
  cases l with
  | nil => exact absurd ha (List.not_mem_nil a)
  | cons x t =>
    cases t with
    | nil =>
      rw [List.mem_singleton] at ha hb
      exact absurd (ha.trans hb.symm) hab
    | cons y t' =>
      simp only [List.length_cons]
      omega

theorem exists_two_distinct_of_nodup_of_one_lt {l : List FPath}
    (hnd : l.Nodup) (hlen : 1 < l.length) : ∃ a b, a ∈ l ∧ b ∈ l ∧ a ≠ b := by
  cases l with
  | nil => simp at hlen
  | cons x t =>
    cases t with
    | nil => simp at hlen
    | cons y t' =>
      refine ⟨x, y, by simp, by simp, ?_⟩
      intro hxy
      rw [List.nodup_cons] at hnd
      exact hnd.1 (hxy ▸ List.mem_cons_self y t')

theorem one_lt_dedup_length_iff (l : List FPath) :
    1 < l.dedup.length ↔ ∃ a b, a ∈ l ∧ b ∈ l ∧ a ≠ b := by
  constructor
  · intro h
    rcases exists_two_distinct_of_nodup_of_one_lt (List.nodup_dedup l) h with ⟨a, b, ha, hb, hab⟩
    exact ⟨a, b, List.mem_dedup.mp ha, List.mem_dedup.mp hb, hab⟩
  · rintro ⟨a, b, ha, hb, hab⟩
    exact one_lt_length_of_two_mem (List.mem_dedup.mpr ha) (List.mem_dedup.mpr hb) hab

/-! ## Membership lemmas for the duplicate grouper -/

theorem mem_insertBySizeDesc (a g : (Option Nat × Option Digest) × List FPath)
    (l : List ((Option Nat × Option Digest) × List FPath)) :
    a ∈ insertBySizeDesc g l ↔ a = g ∨ a ∈ l := by
  induction l with
  | nil => simp [insertBySizeDesc]
  | cons b t ih =>
    unfold insertBySizeDesc
    split
    · simp [List.mem_cons]
    · simp only [List.mem_cons, ih]
      tauto

theorem mem_sortBySizeDesc (a : (Option Nat × Option Digest) × List FPath)
    (l : List ((Option Nat × Option Digest) × List FPath)) :
    a ∈ sortBySizeDesc l ↔ a ∈ l := by
  induction l with
  | nil => simp [sortBySizeDesc]
  | cons b t ih =>
    unfold sortBySizeDesc
    rw [mem_insertBySizeDesc, ih, List.mem_cons]

theorem mem_membersOf (hashed : List (Row × Option Digest)) (k : Option Nat × Option Digest)
    (q : FPath) :
    q ∈ membersOf hashed k ↔ ∃ p, p ∈ hashed ∧ groupKeyOf p = k ∧ p.1.filepath = q := by
  unfold membersOf
  rw [List.mem_dedup]
  simp only [List.mem_map, List.mem_filter, decide_eq_true_eq]
  tauto

theorem mem_groupRows (hashed : List (Row × Option Digest))
    (gr : (Option Nat × Option Digest) × List FPath) :
    gr ∈ groupRows hashed ↔
      ∃ k, (∃ p, p ∈ hashed ∧ p.1.size.isSome = true ∧ p.2.isSome = true ∧ groupKeyOf p = k) ∧
        gr = (k, membersOf hashed k) := by
  unfold groupRows
  constructor
  · intro hgr
    rcases List.mem_map.mp hgr with ⟨k, hk, hfk⟩
    rcases List.mem_map.mp (List.mem_dedup.mp hk) with ⟨p, hp, hkey⟩
    rcases List.mem_filter.mp hp with ⟨hph, hpb⟩
    rw [Bool.and_eq_true] at hpb
    exact ⟨k, ⟨p, hph, hpb.1, hpb.2, hkey⟩, hfk.symm⟩
  · rintro ⟨k, ⟨p, hph, hs, hd, hkey⟩, rfl⟩
    refine List.mem_map.mpr ⟨k, ?_, rfl⟩
    refine List.mem_dedup.mpr (List.mem_map.mpr ⟨p, ?_, hkey⟩)
    exact List.mem_filter.mpr ⟨hph, by rw [Bool.and_eq_true]; exact ⟨hs, hd⟩⟩

theorem mem_emitGroups (hashed : List (Row × Option Digest)) (g : DupGroup) :
    g ∈ emitGroups hashed ↔
      ∃ k, (∃ p, p ∈ hashed ∧ p.1.size.isSome = true ∧ p.2.isSome = true ∧ groupKeyOf p = k) ∧
        1 < (membersOf hashed k).length ∧
        g = { size := k.1, filepaths := membersOf hashed k } := by
  unfold emitGroups
  simp only [List.mem_map, mem_sortBySizeDesc, List.mem_filter, decide_eq_true_eq]
  constructor
  · rintro ⟨gr, ⟨hgr, hbig⟩, rfl⟩
    rcases (mem_groupRows hashed gr).mp hgr with ⟨k, hk, rfl⟩
    exact ⟨k, hk, hbig, rfl⟩
  · rintro ⟨k, hk, hbig, rfl⟩
    exact ⟨(k, membersOf hashed k), ⟨(mem_groupRows hashed _).mpr ⟨k, hk, rfl⟩, hbig⟩, rfl⟩

theorem mem_hashPairs (h : FPath → Option Digest) (l : List Row) (p : Row × Option Digest) :
    p ∈ hashPairs h l ↔ ∃ r, r ∈ l ∧ p = (r, h r.filepath) := by
  unfold hashPairs
  simp only [List.mem_map]
  tauto

theorem fip_hashed_eq_hashPairs (h : FPath → Option Digest) (df : List Row) :
    fip_hashed h df = hashPairs h (fip_sizeFiltered df) := rfl

/-! ## The singleton-size-bucket prefilter does not change the groups -/

theorem hashPairs_filter_key (h : FPath → Option Digest) (l : List Row)
    (k : Option Nat × Option Digest) :
    (hashPairs h l).filter (fun p => decide (groupKeyOf p = k)) =
      (l.filter (fun r => decide ((r.size, h r.filepath) = k))).map
        (fun r => (r, h r.filepath)) := by
  unfold hashPairs
  rw [List.filter_map]
  rfl

theorem membersOf_hashPairs (h : FPath → Option Digest) (l : List Row)
    (k : Option Nat × Option Digest) :
    membersOf (hashPairs h l) k =
      ((l.filter (fun r => decide ((r.size, h r.filepath) = k))).map
        (fun r => r.filepath)).dedup := by
  unfold membersOf
  rw [hashPairs_filter_key, List.map_map]
  rfl

theorem one_lt_nunique_of_key_members (h : FPath → Option Digest) (V : List Row) (s : Nat)
    (k : Option Nat × Option Digest) (hk1 : k.1 = some s)
    (hbig : 1 < ((V.filter (fun r => decide ((r.size, h r.filepath) = k))).map
        (fun r => r.filepath)).dedup.length) :
    1 < nuniqueSize V s := by
  unfold nuniqueSize sizeBucket
  rw [one_lt_dedup_length_iff] at hbig ⊢
  obtain ⟨a, b, ha, hb, hab⟩ := hbig
  have key_to_bucket : ∀ x,
      x ∈ (V.filter (fun r => decide ((r.size, h r.filepath) = k))).map (fun r => r.filepath) →
      x ∈ (V.filter (fun r => decide (r.size = some s))).map (fun r => r.filepath) := by
    intro x hx
    rcases List.mem_map.mp hx with ⟨r, hr, rfl⟩
    rcases List.mem_filter.mp hr with ⟨hrV, hrk⟩
    have hkey := of_decide_eq_true hrk
    have hsz : r.size = some s := by
      rw [← hk1]
      exact congrArg Prod.fst hkey
    exact List.mem_map.mpr ⟨r, List.mem_filter.mpr ⟨hrV, decide_eq_true hsz⟩, rfl⟩
  exact ⟨a, b, key_to_bucket a ha, key_to_bucket b hb, hab⟩

theorem sizeFiltered_filter_key_eq (h : FPath → Option Digest) (df : List Row) (s : Nat)
    (k : Option Nat × Option Digest) (hk1 : k.1 = some s)
    (hV : 1 < nuniqueSize (fip_visible df) s) :
    (fip_sizeFiltered df).filter (fun r => decide ((r.size, h r.filepath) = k)) =
      (fip_visible df).filter (fun r => decide ((r.size, h r.filepath) = k)) := by
  unfold fip_sizeFiltered
  rw [List.filter_filter]
  apply List.filter_congr
  intro r hr
  by_cases hkey : ((r.size, h r.filepath) = k)
  · have hsz : r.size = some s := by
      rw [← hk1]
      exact congrArg Prod.fst hkey
    have hbp : bigBucketPred (fip_visible df) r = true := by
      unfold bigBucketPred
      rw [hsz]
      exact decide_eq_true hV
    rw [hbp, decide_eq_true hkey]
    rfl
  · rw [decide_eq_false hkey]
    rfl

theorem baseline_filter_key_eq (h : FPath → Option Digest) (df : List Row) (s : Nat)
    (k : Option Nat × Option Digest) (hk1 : k.1 = some s) :
    (df.filter (fun r => decide (r.ftype = visibleStr) && r.size.isSome)).filter
        (fun r => decide ((r.size, h r.filepath) = k)) =
      (fip_visible df).filter (fun r => decide ((r.size, h r.filepath) = k)) := by
  unfold fip_visible
  rw [List.filter_filter, List.filter_filter]
  apply List.filter_congr
  intro r hr
  by_cases hkey : ((r.size, h r.filepath) = k)
  · have hsz : r.size = some s := by
      rw [← hk1]
      exact congrArg Prod.fst hkey
    rw [decide_eq_true hkey, hsz]
    simp
  · rw [decide_eq_false hkey]
    rfl

/-- The result sets of the prefiltered duplicate finder and of the
no-prefilter baseline coincide, group by group. -/
theorem find_issues_pandas_mem_iff_baseline (h : FPath → Option Digest) (df : List Row)
    (g : DupGroup) : g ∈ find_issues_pandas h df ↔ g ∈ find_duplicates_baseline h df := by
  have hpre : find_issues_pandas h df = emitGroups (hashPairs h (fip_sizeFiltered df)) := rfl
  have hbase : find_duplicates_baseline h df = emitGroups (hashPairs h
      (df.filter (fun r => decide (r.ftype = visibleStr) && r.size.isSome))) := rfl
  rw [hpre, hbase, mem_emitGroups, mem_emitGroups]
  constructor
  · rintro ⟨k, ⟨p, hp, hs, hd, hkey⟩, hbig, rfl⟩
    obtain ⟨s, hps⟩ := Option.isSome_iff_exists.mp hs
    have hk1 : k.1 = some s := by
      rw [← hkey]
      exact hps
    obtain ⟨d, hpd⟩ := Option.isSome_iff_exists.mp hd
    have hk2 : k.2 = some d := by
      rw [← hkey]
      exact hpd
    rw [membersOf_hashPairs] at hbig
    have hVbig : 1 < (((fip_visible df).filter
        (fun r => decide ((r.size, h r.filepath) = k))).map (fun r => r.filepath)).dedup.length := by
      rw [one_lt_dedup_length_iff] at hbig ⊢
      obtain ⟨a, b, ha, hb, hab⟩ := hbig
      have sub : ∀ x, x ∈ ((fip_sizeFiltered df).filter
          (fun r => decide ((r.size, h r.filepath) = k))).map (fun r => r.filepath) →
          x ∈ ((fip_visible df).filter
          (fun r => decide ((r.size, h r.filepath) = k))).map (fun r => r.filepath) := by
        intro x hx
        rcases List.mem_map.mp hx with ⟨r, hr, rfl⟩
        rcases List.mem_filter.mp hr with ⟨hr2, hrk⟩
        have hr2' : r ∈ (fip_visible df).filter (bigBucketPred (fip_visible df)) := hr2
        exact List.mem_map.mpr
          ⟨r, List.mem_filter.mpr ⟨(List.mem_filter.mp hr2').1, hrk⟩, rfl⟩
      exact ⟨a, b, sub a ha, sub b hb, hab⟩
    have hV : 1 < nuniqueSize (fip_visible df) s :=
      one_lt_nunique_of_key_members h (fip_visible df) s k hk1 hVbig
    have hMeq : membersOf (hashPairs h (fip_sizeFiltered df)) k =
        membersOf (hashPairs h
          (df.filter (fun r => decide (r.ftype = visibleStr) && r.size.isSome))) k := by
      rw [membersOf_hashPairs, membersOf_hashPairs, sizeFiltered_filter_key_eq h df s k hk1 hV,
        baseline_filter_key_eq h df s k hk1]
    obtain ⟨a, b, ha, hb, hab⟩ := (one_lt_dedup_length_iff _).mp hVbig
    rcases List.mem_map.mp ha with ⟨r, hr, rfl⟩
    rcases List.mem_filter.mp hr with ⟨hrV, hrk⟩
    have hkeyr := of_decide_eq_true hrk
    have hrs : r.size = some s := by
      rw [← hk1]
      exact congrArg Prod.fst hkeyr
    have hrd : h r.filepath = some d := by
      rw [← hk2]
      exact congrArg Prod.snd hkeyr
    have hrB : r ∈ df.filter (fun r => decide (r.ftype = visibleStr) && r.size.isSome) := by
      rcases List.mem_filter.mp hrV with ⟨hrdf, hrvis⟩
      refine List.mem_filter.mpr ⟨hrdf, ?_⟩
      rw [Bool.and_eq_true]
      exact ⟨hrvis, by rw [hrs]; rfl⟩
    refine ⟨k, ⟨(r, h r.filepath), (mem_hashPairs h _ _).mpr ⟨r, hrB, rfl⟩,
      by rw [hrs]; rfl, by rw [hrd]; rfl, ?_⟩, by rw [← hMeq]; exact (by rwa [membersOf_hashPairs]),
      by rw [← hMeq]⟩
    show (r.size, h r.filepath) = k
    exact hkeyr
  · rintro ⟨k, ⟨p, hp, hs, hd, hkey⟩, hbig, rfl⟩
    obtain ⟨s, hps⟩ := Option.isSome_iff_exists.mp hs
    have hk1 : k.1 = some s := by
      rw [← hkey]
      exact hps
    obtain ⟨d, hpd⟩ := Option.isSome_iff_exists.mp hd
    have hk2 : k.2 = some d := by
      rw [← hkey]
      exact hpd
    rw [membersOf_hashPairs, baseline_filter_key_eq h df s k hk1] at hbig
    have hV : 1 < nuniqueSize (fip_visible df) s :=
      one_lt_nunique_of_key_members h (fip_visible df) s k hk1 hbig
    have hMeq : membersOf (hashPairs h (fip_sizeFiltered df)) k =
        membersOf (hashPairs h
          (df.filter (fun r => decide (r.ftype = visibleStr) && r.size.isSome))) k := by
      rw [membersOf_hashPairs, membersOf_hashPairs, sizeFiltered_filter_key_eq h df s k hk1 hV,
        baseline_filter_key_eq h df s k hk1]
    obtain ⟨a, b, ha, hb, hab⟩ := (one_lt_dedup_length_iff _).mp hbig
    rcases List.mem_map.mp ha with ⟨r, hr, rfl⟩
    rcases List.mem_filter.mp hr with ⟨hrV, hrk⟩
    have hkeyr := of_decide_eq_true hrk
    have hrs : r.size = some s := by
      rw [← hk1]
      exact congrArg Prod.fst hkeyr
    have hrd : h r.filepath = some d := by
      rw [← hk2]
      exact congrArg Prod.snd hkeyr
    have hr2 : r ∈ fip_sizeFiltered df := by
      have hbp : bigBucketPred (fip_visible df) r = true := by
        unfold bigBucketPred
        rw [hrs]
        exact decide_eq_true hV
      exact List.mem_filter.mpr ⟨hrV, hbp⟩
    refine ⟨k, ⟨(r, h r.filepath), (mem_hashPairs h _ _).mpr ⟨r, hr2, rfl⟩,
      by rw [hrs]; rfl, by rw [hrd]; rfl, ?_⟩,
      by rw [membersOf_hashPairs, sizeFiltered_filter_key_eq h df s k hk1 hV]; exact hbig,
      by rw [hMeq]⟩
    show (r.size, h r.filepath) = k
    exact hkeyr

/-! ## Characterizing the rows that reach the hasher -/

theorem nodup_bucket_paths (df : List Row)
    (hnd : (df.map (fun r => r.filepath)).Nodup) (s : Nat) :
    ((sizeBucket (fip_visible df) s).map (fun r => r.filepath)).Nodup := by
  have hsub : (sizeBucket (fip_visible df) s).Sublist df :=
    ((List.filter_sublist _).trans (List.filter_sublist _))
  exact List.Nodup.sublist (hsub.map (fun r => r.filepath)) hnd

theorem nuniqueSize_eq_bucket_length (df : List Row)
    (hnd : (df.map (fun r => r.filepath)).Nodup) (s : Nat) :
    nuniqueSize (fip_visible df) s = (sizeBucket (fip_visible df) s).length := by
  unfold nuniqueSize
  rw [List.dedup_eq_self.mpr (nodup_bucket_paths df hnd s), List.length_map]

theorem mem_fip_sizeFiltered_iff (df : List Row) (r : Row) :
    r ∈ fip_sizeFiltered df ↔
      r ∈ fip_visible df ∧ ∃ s, r.size = some s ∧ 1 < nuniqueSize (fip_visible df) s := by
  unfold fip_sizeFiltered
  rw [List.mem_filter]
  constructor
  · rintro ⟨h1, h2⟩
    refine ⟨h1, ?_⟩
    unfold bigBucketPred at h2
    cases hsz : r.size with
    | none =>
      rw [hsz] at h2
      exact Bool.noConfusion h2
    | some s =>
      rw [hsz] at h2
      exact ⟨s, rfl, of_decide_eq_true h2⟩
  · rintro ⟨h1, s, hs, hbig⟩
    refine ⟨h1, ?_⟩
    unfold bigBucketPred
    rw [hs]
    exact decide_eq_true hbig

theorem mem_fip_hashed_iff (h : FPath → Option Digest) (df : List Row) (r : Row) :
    (r, h r.filepath) ∈ fip_hashed h df ↔ r ∈ fip_sizeFiltered df := by
  rw [fip_hashed_eq_hashPairs, mem_hashPairs]
  constructor
  · rintro ⟨r', hr', heq⟩
    have hrr : r = r' := congrArg Prod.fst heq
    rwa [hrr]
  · intro hr
    exact ⟨r, hr, rfl⟩

/-! ## The source find_issues_pandas equals the spec pipeline at the default flags -/

theorem spec_filter_defaults (df : List Row) :
    spec_filter df 0 true =
      df.filter (fun r => decide (r.ftype = visibleStr) && r.size.isSome) := by
  unfold spec_filter
  apply List.filter_congr
  intro r hr
  cases hsz : r.size with
  | none => simp [sizeAtLeast, hsz]
  | some s => simp [sizeAtLeast, hsz]

theorem baseline_eq_visible_filter (df : List Row) :
    df.filter (fun r => decide (r.ftype = visibleStr) && r.size.isSome) =
      (fip_visible df).filter (fun r => r.size.isSome) := by
  unfold fip_visible
  rw [List.filter_filter]
  apply List.filter_congr
  intro r hr
  exact Bool.and_comm _ _

theorem sizeBucket_baseline_eq (df : List Row) (s : Nat) :
    sizeBucket (df.filter (fun r => decide (r.ftype = visibleStr) && r.size.isSome)) s =
      sizeBucket (fip_visible df) s := by
  unfold sizeBucket fip_visible
  rw [List.filter_filter, List.filter_filter]
  apply List.filter_congr
  intro r hr
  by_cases hsz : r.size = some s
  · rw [decide_eq_true hsz, hsz]
    simp
  · rw [decide_eq_false hsz]
    rfl

theorem nuniqueSize_baseline_eq (df : List Row) (s : Nat) :
    nuniqueSize (df.filter (fun r => decide (r.ftype = visibleStr) && r.size.isSome)) s =
      nuniqueSize (fip_visible df) s := by
  unfold nuniqueSize
  rw [sizeBucket_baseline_eq]

theorem bigBucketPred_baseline_eq (df : List Row) (r : Row) :
    bigBucketPred (df.filter (fun r => decide (r.ftype = visibleStr) && r.size.isSome)) r =
      bigBucketPred (fip_visible df) r := by
  unfold bigBucketPred
  cases hsz : r.size with
  | none => rfl
  | some s =>
    show decide (1 < nuniqueSize
        (df.filter (fun r => decide (r.ftype = visibleStr) && r.size.isSome)) s) =
      decide (1 < nuniqueSize (fip_visible df) s)
    rw [nuniqueSize_baseline_eq]

theorem filtered_spec_eq (df : List Row) :
    (df.filter (fun r => decide (r.ftype = visibleStr) && r.size.isSome)).filter
        (bigBucketPred (df.filter (fun r => decide (r.ftype = visibleStr) && r.size.isSome))) =
      fip_sizeFiltered df := by
  have h1 : (df.filter (fun r => decide (r.ftype = visibleStr) && r.size.isSome)).filter
        (bigBucketPred (df.filter (fun r => decide (r.ftype = visibleStr) && r.size.isSome))) =
      (df.filter (fun r => decide (r.ftype = visibleStr) && r.size.isSome)).filter
        (bigBucketPred (fip_visible df)) :=
    List.filter_congr (fun r _ => bigBucketPred_baseline_eq df r)
  rw [h1, baseline_eq_visible_filter, List.filter_filter]
  unfold fip_sizeFiltered
  apply List.filter_congr
  intro r hr
  cases hsz : r.size with
  | none =>
    have hbp : bigBucketPred (fip_visible df) r = false := by
      unfold bigBucketPred
      rw [hsz]
    rw [hbp]
    rfl
  | some s => simp

theorem find_duplicates_spec_defaults (h : FPath → Option Digest) (df : List Row) :
    find_duplicates_spec h df 0 true = find_issues_pandas h df := by
  unfold find_duplicates_spec find_issues_pandas fip_hashed
  rw [spec_filter_defaults, filtered_spec_eq]

/-! ## The common-sizes prefilter of the reconciler does not change the join -/

theorem fst_mem_of_mem_readable_hashPairs (h : FPath → Option Digest) (l : List Row)
    (p : Row × Option Digest) (hp : p ∈ readable (hashPairs h l)) :
    p.1 ∈ l ∧ p.2 = h p.1.filepath ∧ p.2.isSome = true := by
  unfold readable at hp
  rcases List.mem_filter.mp hp with ⟨hp1, hp2⟩
  rcases (mem_hashPairs h l p).mp hp1 with ⟨r, hr, rfl⟩
  exact ⟨hr, rfl, hp2⟩

theorem mem_rec_hashed (h : FPath → Option Digest) (df : List Row) (ms : Nat) (ov : Bool)
    (p : Row × Option Digest) :
    p ∈ rec_hashed h df ms ov ↔
      p.1 ∈ rec_filtered df ms ov ∧ p.2 = h p.1.filepath ∧ p.2.isSome = true := by
  obtain ⟨r, x⟩ := p
  unfold rec_hashed
  constructor
  · exact fst_mem_of_mem_readable_hashPairs h _ _
  · rintro ⟨h1, h2, h3⟩
    unfold readable
    refine List.mem_filter.mpr ⟨?_, h3⟩
    refine (mem_hashPairs _ _ _).mpr ⟨r, h1, ?_⟩
    simp only at h2
    rw [h2]

theorem filter_hashPairs_comm (h : FPath → Option Digest) (q : Row → Bool) (l : List Row) :
    hashPairs h (l.filter q) = (hashPairs h l).filter (fun p => q p.1) := by
  unfold hashPairs
  rw [List.filter_map]
  rfl

theorem readable_hashPairs_filter (h : FPath → Option Digest) (q : Row → Bool) (l : List Row) :
    readable (hashPairs h (l.filter q)) = (readable (hashPairs h l)).filter (fun p => q p.1) := by
  rw [filter_hashPairs_comm]
  unfold readable
  rw [List.filter_filter, List.filter_filter]
  apply List.filter_congr
  intro p hp
  exact Bool.and_comm _ _

theorem flatMap_filter_eq (q : Row × Option Digest → Bool)
    (l : List (Row × Option Digest)) (F : Row × Option Digest → List MatchRow) :
    (l.filter q).flatMap F = l.flatMap (fun a => if q a = true then F a else []) := by
  induction l with
  | nil => rfl
  | cons a t ih =>
    rw [List.filter_cons, List.flatMap_cons]
    by_cases hq : q a = true
    · rw [if_pos hq, List.flatMap_cons, if_pos hq, ih]
    · rw [if_neg hq, if_neg hq, ih]
      rfl

theorem flatMap_congr_mem {l : List (Row × Option Digest)}
    {F G : Row × Option Digest → List MatchRow} (h : ∀ a ∈ l, F a = G a) :
    l.flatMap F = l.flatMap G := by
  induction l with
  | nil => rfl
  | cons a t ih =>
    rw [List.flatMap_cons, List.flatMap_cons, h a (List.mem_cons_self a t),
      ih (fun x hx => h x (List.mem_cons_of_mem a hx))]

theorem mem_common_sizes (dfm dfc : List Row) (s : Option Nat) :
    s ∈ common_sizes dfm dfc ↔
      s ∈ dfm.map (fun r => r.size) ∧ s ∈ dfc.map (fun r => r.size) := by
  unfold common_sizes
  rw [List.mem_filter, List.mem_dedup, decide_eq_true_eq]

theorem sharedPaths_length_zero_iff (dm dc : List Row) :
    (sharedPaths dm dc).length = 0 ↔
      ¬ ∃ p, p ∈ dm.map (fun r => r.filepath) ∧ p ∈ dc.map (fun r => r.filepath) := by
  rw [List.length_eq_zero]
  unfold sharedPaths
  rw [List.filter_eq_nil_iff]
  constructor
  · intro h
    rintro ⟨p, hpm, hpc⟩
    exact (h p (List.mem_dedup.mpr hpm)) (decide_eq_true hpc)
  · intro h p hp hdec
    exact h ⟨p, List.mem_dedup.mp hp, of_decide_eq_true hdec⟩

/-- Restricting both sides of the reconciliation to their common sizes
before hashing does not change the joined match set. -/
theorem reconcile_eq_baseline (h : FPath → Option Digest) (dm dc : List Row)
    (ms : Nat) (ov : Bool) (hdisj : (sharedPaths dm dc).length = 0) :
    find_issues_master_client h dm dc ms ov = .ok (reconcile_baseline h dm dc ms ov) := by
  unfold find_issues_master_client
  rw [if_neg (by omega)]
  congr 1
  unfold reconcile_baseline rec_hashed
  rw [readable_hashPairs_filter h _ (rec_filtered dc ms ov),
      readable_hashPairs_filter h _ (rec_filtered dm ms ov)]
  unfold joinRows
  rw [flatMap_filter_eq]
  apply flatMap_congr_mem
  intro c hc
  have hcC := fst_mem_of_mem_readable_hashPairs h _ _ hc
  by_cases hqc : (decide (c.1.size ∈ common_sizes (rec_filtered dm ms ov)
      (rec_filtered dc ms ov))) = true
  · rw [if_pos hqc, List.filter_filter]
    apply congrArg (List.map _)
    apply List.filter_congr
    intro m hm
    by_cases hmt : (m.1.size = c.1.size ∧ m.2 = c.2)
    · rw [decide_eq_true hmt]
      have hms : (decide (m.1.size ∈ common_sizes (rec_filtered dm ms ov)
          (rec_filtered dc ms ov))) = true := by
        rw [hmt.1]
        exact hqc
      rw [hms]
      rfl
    · rw [decide_eq_false hmt]
      rfl
  · rw [if_neg hqc]
    symm
    rw [List.map_eq_nil_iff, List.filter_eq_nil_iff]
    intro m hm hmdec
    have hmt := of_decide_eq_true hmdec
    have hmM := fst_mem_of_mem_readable_hashPairs h _ _ hm
    have hcs : c.1.size ∈ common_sizes (rec_filtered dm ms ov) (rec_filtered dc ms ov) := by
      rw [mem_common_sizes]
      constructor
      · rw [← hmt.1]
        exact List.mem_map.mpr ⟨m.1, hmM.1, rfl⟩
      · exact List.mem_map.mpr ⟨c.1, hcC.1, rfl⟩
    exact hqc (decide_eq_true hcs)

/-! ## Membership and duplicate-freeness of the reconciliation join -/

theorem mem_joinRows (hc hm : List (Row × Option Digest)) (mr : MatchRow) :
    mr ∈ joinRows hc hm ↔
      ∃ c m, c ∈ hc ∧ m ∈ hm ∧ m.1.size = c.1.size ∧ m.2 = c.2 ∧ mr = mkMatch c m := by
  unfold joinRows
  rw [List.mem_flatMap]
  constructor
  · rintro ⟨c, hcm, hmr⟩
    rcases List.mem_map.mp hmr with ⟨m, hm', rfl⟩
    rcases List.mem_filter.mp hm' with ⟨hmm, hdec⟩
    have hp := of_decide_eq_true hdec
    exact ⟨c, m, hcm, hmm, hp.1, hp.2, rfl⟩
  · rintro ⟨c, m, hcm, hmm, h1, h2, rfl⟩
    exact ⟨c, hcm, List.mem_map.mpr ⟨m, List.mem_filter.mpr ⟨hmm, decide_eq_true ⟨h1, h2⟩⟩, rfl⟩⟩

theorem readable_hashPairs_paths (h : FPath → Option Digest) (l : List Row) :
    (readable (hashPairs h l)).map (fun p => p.1.filepath) =
      (l.filter (fun r => (h r.filepath).isSome)).map (fun r => r.filepath) := by
  unfold readable hashPairs
  rw [List.filter_map, List.map_map]
  rfl

theorem rec_filtered_sublist (df : List Row) (ms : Nat) (ov : Bool) :
    (rec_filtered df ms ov).Sublist df := by
  unfold rec_filtered rec_minsize
  by_cases hov : ov = true
  · rw [if_pos hov]
    exact (List.filter_sublist _).trans (List.filter_sublist _)
  · rw [if_neg hov]
    exact List.filter_sublist _

theorem rec_hashed_paths_sublist (h : FPath → Option Digest) (df : List Row) (ms : Nat)
    (ov : Bool) :
    ((rec_hashed h df ms ov).map (fun p => p.1.filepath)).Sublist
      (df.map (fun r => r.filepath)) := by
  unfold rec_hashed
  rw [readable_hashPairs_paths]
  exact ((List.filter_sublist _).map _).trans ((rec_filtered_sublist df ms ov).map _)

theorem rec_hashed_paths_nodup (h : FPath → Option Digest) (df : List Row) (ms : Nat)
    (ov : Bool) (hnd : (df.map (fun r => r.filepath)).Nodup) :
    ((rec_hashed h df ms ov).map (fun p => p.1.filepath)).Nodup :=
  List.Nodup.sublist (rec_hashed_paths_sublist h df ms ov) hnd

theorem joinRows_nodup (hc hm : List (Row × Option Digest))
    (hcN : (hc.map (fun p => p.1.filepath)).Nodup)
    (hmN : (hm.map (fun p => p.1.filepath)).Nodup) : (joinRows hc hm).Nodup := by
  unfold joinRows
  rw [List.nodup_flatMap]
  constructor
  · intro c hcmem
    apply List.Nodup.map_on
    · intro m hmem m' hmem' heq
      have h1 : m.1.filepath = m'.1.filepath := congrArg MatchRow.filepath_master heq
      exact List.inj_on_of_nodup_map hmN (List.mem_of_mem_filter hmem)
        (List.mem_of_mem_filter hmem') h1
    · exact List.Nodup.filter _ (List.Nodup.of_map _ hmN)
  · have hpw : List.Pairwise (fun a b => a.1.filepath ≠ b.1.filepath) hc :=
      List.pairwise_map.mp hcN
    refine hpw.imp ?_
    intro a b hne mr hma hmb
    rcases List.mem_map.mp hma with ⟨m, _, hma'⟩
    rcases List.mem_map.mp hmb with ⟨m', _, hmb'⟩
    apply hne
    have hmm : mkMatch a m = mkMatch b m' := hma'.trans hmb'.symm
    exact congrArg MatchRow.filepath hmm

/-! ## drop_duplicates keeps the first record of each filepath -/

theorem mem_drop_duplicates_aux (seen : List FPath) (l : List (FPath × Option Nat))
    (x : FPath × Option Nat) (hx : x ∈ drop_duplicates_aux seen l) : x ∈ l := by
  induction l generalizing seen with
  | nil => exact absurd hx (List.not_mem_nil x)
  | cons a t ih =>
    unfold drop_duplicates_aux at hx
    by_cases hs : a.1 ∈ seen
    · rw [if_pos hs] at hx
      exact List.mem_cons_of_mem a (ih seen hx)
    · rw [if_neg hs] at hx
      rcases List.mem_cons.mp hx with h1 | h2
      · rw [h1]
        exact List.mem_cons_self a t
      · exact List.mem_cons_of_mem a (ih _ h2)

theorem fst_not_mem_seen_of_mem_aux (seen : List FPath) (l : List (FPath × Option Nat))
    (x : FPath × Option Nat) (hx : x ∈ drop_duplicates_aux seen l) : x.1 ∉ seen := by
  induction l generalizing seen with
  | nil => exact absurd hx (List.not_mem_nil x)
  | cons a t ih =>
    unfold drop_duplicates_aux at hx
    by_cases hs : a.1 ∈ seen
    · rw [if_pos hs] at hx
      exact ih seen hx
    · rw [if_neg hs] at hx
      rcases List.mem_cons.mp hx with h1 | h2
      · rw [h1]
        exact hs
      · intro hmem
        exact (ih _ h2) (List.mem_cons_of_mem _ hmem)

theorem nodup_drop_duplicates_aux_paths (seen : List FPath)
    (l : List (FPath × Option Nat)) :
    ((drop_duplicates_aux seen l).map (fun x => x.1)).Nodup := by
  induction l generalizing seen with
  | nil => simp [drop_duplicates_aux]
  | cons a t ih =>
    unfold drop_duplicates_aux
    by_cases hs : a.1 ∈ seen
    · rw [if_pos hs]
      exact ih seen
    · rw [if_neg hs, List.map_cons, List.nodup_cons]
      constructor
      · intro hmem
        rcases List.mem_map.mp hmem with ⟨y, hy, hyeq⟩
        exact (fst_not_mem_seen_of_mem_aux _ _ _ hy) (by rw [hyeq]; exact List.mem_cons_self _ _)
      · exact ih _

theorem find?_drop_duplicates_aux (seen : List FPath) (l : List (FPath × Option Nat))
    (p : FPath) (hp : p ∉ seen) :
    (drop_duplicates_aux seen l).find? (fun x => decide (x.1 = p)) =
      l.find? (fun x => decide (x.1 = p)) := by
  induction l generalizing seen with
  | nil => rfl
  | cons a t ih =>
    unfold drop_duplicates_aux
    by_cases hs : a.1 ∈ seen
    · rw [if_pos hs]
      have hne : a.1 ≠ p := fun hcontra => hp (hcontra ▸ hs)
      rw [List.find?_cons_of_neg _ (by simp [hne]), ih seen hp]
    · rw [if_neg hs]
      by_cases hap : a.1 = p
      · rw [List.find?_cons_of_pos _ (by simp [hap]), List.find?_cons_of_pos _ (by simp [hap])]
      · rw [List.find?_cons_of_neg _ (by simp [hap]), List.find?_cons_of_neg _ (by simp [hap])]
        apply ih
        intro hmem
        rcases List.mem_cons.mp hmem with h1 | h2
        · exact hap h1.symm
        · exact hp h2

theorem main_pandas_find? (files : List (FPath × Option Nat)) (p : FPath) :
    (main_pandas files).find? (fun r => decide (r.filepath = p)) =
      (files.find? (fun x => decide (x.1 = p))).map mkRow := by
  unfold main_pandas drop_duplicates
  rw [List.find?_map]
  show Option.map mkRow ((drop_duplicates_aux [] files).find? (fun x => decide (x.1 = p))) =
    Option.map mkRow (files.find? (fun x => decide (x.1 = p)))
  rw [find?_drop_duplicates_aux [] files p (List.not_mem_nil p)]

theorem main_pandas_paths_nodup (files : List (FPath × Option Nat)) :
    ((main_pandas files).map (fun r => r.filepath)).Nodup := by
  unfold main_pandas drop_duplicates
  rw [List.map_map]
  exact nodup_drop_duplicates_aux_paths [] files

theorem mem_main_pandas (files : List (FPath × Option Nat)) (r : Row)
    (hr : r ∈ main_pandas files) : (r.filepath, r.size) ∈ files := by
  unfold main_pandas at hr
  rcases List.mem_map.mp hr with ⟨x, hx, rfl⟩
  have hxl := mem_drop_duplicates_aux [] files x hx
  simpa using hxl

/-- Every member path of a group with key k comes from a catalog record of
size k.1 whose digest is k.2. -/
theorem member_key_fact (h : FPath → Option Digest) (df : List Row)
    (k : Option Nat × Option Digest) (p : FPath)
    (hp : p ∈ membersOf (hashPairs h (fip_sizeFiltered df)) k) :
    ∃ r, r ∈ df ∧ r.filepath = p ∧ r.size = k.1 ∧ h p = k.2 := by
  rcases (mem_membersOf _ k p).mp hp with ⟨pr, hpr, hkey, hfp⟩
  rcases (mem_hashPairs h _ pr).mp hpr with ⟨r, hr2, rfl⟩
  have hr2' : r ∈ (fip_visible df).filter (bigBucketPred (fip_visible df)) := hr2
  have hrV : r ∈ fip_visible df := (List.mem_filter.mp hr2').1
  have hrdf : r ∈ df := (List.mem_filter.mp hrV).1
  refine ⟨r, hrdf, hfp, congrArg Prod.fst hkey, ?_⟩
  rw [← hfp]
  exact congrArg Prod.snd hkey

/-! ## Claim theorems -/

/-- C1: Soundness of duplicate grouping.  Every DuplicateGroup emitted by
find_issues_pandas has at least two distinct member paths, carries a
present group size, each member path belongs to a catalog record whose
size equals the group size, and every pair of members has the same
present content digest under the hash oracle. -/
theorem C1_duplicate_groups_sound (h : FPath → Option Digest) (df : List Row) (g : DupGroup)
    (hg : g ∈ find_issues_pandas h df) :
    (∃ p q, p ∈ g.filepaths ∧ q ∈ g.filepaths ∧ p ≠ q) ∧
    g.size.isSome = true ∧
    (∀ p, p ∈ g.filepaths → ∃ r, r ∈ df ∧ r.filepath = p ∧ r.size = g.size) ∧
    (∀ p q, p ∈ g.filepaths → q ∈ g.filepaths → h p = h q ∧ (h p).isSome = true) := by
  have hg' : g ∈ emitGroups (hashPairs h (fip_sizeFiltered df)) := hg
  rcases (mem_emitGroups _ g).mp hg' with ⟨k, ⟨p0, hp0, hs0, hd0, hk0⟩, hbig, rfl⟩
  refine ⟨exists_two_distinct_of_nodup_of_one_lt (List.nodup_dedup _) hbig, ?_, ?_, ?_⟩
  · show k.1.isSome = true
    rw [← hk0]
    exact hs0
  · intro p hp
    rcases member_key_fact h df k p hp with ⟨r, hrdf, hrfp, hrsz, _⟩
    exact ⟨r, hrdf, hrfp, hrsz⟩
  · intro p q hp hq
    rcases member_key_fact h df k p hp with ⟨_, _, _, _, hhp⟩
    rcases member_key_fact h df k q hq with ⟨_, _, _, _, hhq⟩
    refine ⟨hhp.trans hhq.symm, ?_⟩
    rw [hhp, ← hk0]
    exact hd0

/-- Witness for C1 at a concrete two-file catalog with equal sizes and
equal digests. -/
theorem C1_witness : ∃ p q, p ∈ grpAB.filepaths ∧ q ∈ grpAB.filepaths ∧ p ≠ q :=
  (C1_duplicate_groups_sound hConst dfPair grpAB (by decide)).1

/-- C2: Completeness despite prefilters.  Every pair of eligible records
(visible, same present size, same present digest, distinct paths) lands
together in some emitted group; the groups of find_issues_pandas with its
singleton-size-bucket prefilter are exactly the groups of the no-prefilter
baseline; and for disjoint catalogs the reconciler with its common-sizes
prefilter returns exactly the no-prefilter baseline join. -/
theorem C2_prefilters_preserve_results (h : FPath → Option Digest) (df dm dc : List Row)
    (ms : Nat) (ov : Bool) :
    (∀ r1 r2 s d, r1 ∈ df → r2 ∈ df → r1.ftype = visibleStr → r2.ftype = visibleStr →
      r1.size = some s → r2.size = some s → h r1.filepath = some d → h r2.filepath = some d →
      r1.filepath ≠ r2.filepath →
      ∃ g, g ∈ find_issues_pandas h df ∧ r1.filepath ∈ g.filepaths ∧
        r2.filepath ∈ g.filepaths) ∧
    (∀ g, g ∈ find_issues_pandas h df ↔ g ∈ find_duplicates_baseline h df) ∧
    ((¬ ∃ p, p ∈ dm.map (fun r => r.filepath) ∧ p ∈ dc.map (fun r => r.filepath)) →
      find_issues_master_client h dm dc ms ov = .ok (reconcile_baseline h dm dc ms ov)) := by
  refine ⟨?_, fun g => find_issues_pandas_mem_iff_baseline h df g, fun hdisj =>
    reconcile_eq_baseline h dm dc ms ov ((sharedPaths_length_zero_iff dm dc).mpr hdisj)⟩
  intro r1 r2 s d h1 h2 hv1 hv2 hs1 hs2 hd1 hd2 hne
  have hr1V : r1 ∈ fip_visible df := List.mem_filter.mpr ⟨h1, decide_eq_true hv1⟩
  have hr2V : r2 ∈ fip_visible df := List.mem_filter.mpr ⟨h2, decide_eq_true hv2⟩
  have hnun : 1 < nuniqueSize (fip_visible df) s := by
    unfold nuniqueSize sizeBucket
    rw [one_lt_dedup_length_iff]
    exact ⟨r1.filepath, r2.filepath,
      List.mem_map.mpr ⟨r1, List.mem_filter.mpr ⟨hr1V, decide_eq_true hs1⟩, rfl⟩,
      List.mem_map.mpr ⟨r2, List.mem_filter.mpr ⟨hr2V, decide_eq_true hs2⟩, rfl⟩, hne⟩
  have hr1F : r1 ∈ fip_sizeFiltered df :=
    (mem_fip_sizeFiltered_iff df r1).mpr ⟨hr1V, s, hs1, hnun⟩
  have hr2F : r2 ∈ fip_sizeFiltered df :=
    (mem_fip_sizeFiltered_iff df r2).mpr ⟨hr2V, s, hs2, hnun⟩
  have hm1 : r1.filepath ∈ membersOf (hashPairs h (fip_sizeFiltered df)) (some s, some d) := by
    refine (mem_membersOf _ _ r1.filepath).mpr
      ⟨(r1, h r1.filepath), (mem_hashPairs h _ _).mpr ⟨r1, hr1F, rfl⟩, ?_, rfl⟩
    show (r1.size, h r1.filepath) = (some s, some d)
    rw [hs1, hd1]
  have hm2 : r2.filepath ∈ membersOf (hashPairs h (fip_sizeFiltered df)) (some s, some d) := by
    refine (mem_membersOf _ _ r2.filepath).mpr
      ⟨(r2, h r2.filepath), (mem_hashPairs h _ _).mpr ⟨r2, hr2F, rfl⟩, ?_, rfl⟩
    show (r2.size, h r2.filepath) = (some s, some d)
    rw [hs2, hd2]
  have hbig : 1 < (membersOf (hashPairs h (fip_sizeFiltered df)) (some s, some d)).length :=
    one_lt_length_of_two_mem hm1 hm2 hne
  refine ⟨DupGroup.mk (some s) (membersOf (hashPairs h (fip_sizeFiltered df)) (some s, some d)),
    ?_, hm1, hm2⟩
  have hfi : find_issues_pandas h df = emitGroups (hashPairs h (fip_sizeFiltered df)) := rfl
  rw [hfi, mem_emitGroups]
  refine ⟨(some s, some d), ⟨(r1, h r1.filepath), (mem_hashPairs h _ _).mpr ⟨r1, hr1F, rfl⟩,
    by rw [hs1]; rfl, by rw [hd1]; rfl, ?_⟩, hbig, rfl⟩
  show (r1.size, h r1.filepath) = (some s, some d)
  rw [hs1, hd1]

/-- Witness for C2 at concrete catalogs. -/
theorem C2_witness :
    (∃ g, g ∈ find_issues_pandas hConst dfPair ∧ rowA.filepath ∈ g.filepaths ∧
      rowB.filepath ∈ g.filepaths) ∧
    (grpAB ∈ find_issues_pandas hConst dfPair ↔ grpAB ∈ find_duplicates_baseline hConst dfPair) ∧
    find_issues_master_client hConst dmOne dcOne 0 true =
      .ok (reconcile_baseline hConst dmOne dcOne 0 true) :=
  ⟨(C2_prefilters_preserve_results hConst dfPair dmOne dcOne 0 true).1 rowA rowB 1 digD
      (by decide) (by decide) (by decide) (by decide) (by decide) (by decide) (by decide)
      (by decide) (by decide),
   (C2_prefilters_preserve_results hConst dfPair dmOne dcOne 0 true).2.1 grpAB,
   (C2_prefilters_preserve_results hConst dfPair dmOne dcOne 0 true).2.2 (by decide)⟩

/-- C3: reconcile raises the disjointness error exactly when the two raw
catalogs share a filepath value; when they are disjoint it returns a
normal result; and whether the error is raised does not depend on the
hash oracle, since the check precedes all hashing. -/
theorem C3_disjointness_check (h : FPath → Option Digest) (dm dc : List Row) (ms : Nat)
    (ov : Bool) :
    (find_issues_master_client h dm dc ms ov = .error errMsg ↔
      ∃ p, p ∈ dm.map (fun r => r.filepath) ∧ p ∈ dc.map (fun r => r.filepath)) ∧
    ((¬ ∃ p, p ∈ dm.map (fun r => r.filepath) ∧ p ∈ dc.map (fun r => r.filepath)) →
      ∃ L, find_issues_master_client h dm dc ms ov = .ok L) ∧
    (∀ h' : FPath → Option Digest,
      find_issues_master_client h dm dc ms ov = .error errMsg ↔
      find_issues_master_client h' dm dc ms ov = .error errMsg) := by
  have hcase : ∀ h0 : FPath → Option Digest,
      find_issues_master_client h0 dm dc ms ov = .error errMsg ↔
      ∃ p, p ∈ dm.map (fun r => r.filepath) ∧ p ∈ dc.map (fun r => r.filepath) := by
    intro h0
    unfold find_issues_master_client
    by_cases hlen : (sharedPaths dm dc).length ≠ 0
    · rw [if_pos hlen]
      constructor
      · intro _
        by_contra hnex
        exact hlen ((sharedPaths_length_zero_iff dm dc).mpr hnex)
      · intro _
        rfl
    · rw [if_neg hlen]
      constructor
      · intro habs
        exact Except.noConfusion habs
      · intro hex
        exact absurd hex ((sharedPaths_length_zero_iff dm dc).mp (by omega))
  refine ⟨hcase h, ?_, fun h' => (hcase h).trans (hcase h').symm⟩
  intro hnex
  exact ⟨reconcile_baseline h dm dc ms ov,
    reconcile_eq_baseline h dm dc ms ov ((sharedPaths_length_zero_iff dm dc).mpr hnex)⟩

/-- Witness for C3: a shared path raises the error, disjoint catalogs
produce a normal result. -/
theorem C3_witness :
    find_issues_master_client hConst dmOne dcShared 0 true = .error errMsg ∧
    (∃ L, find_issues_master_client hConst dmOne dcOne 0 true = .ok L) :=
  ⟨(C3_disjointness_check hConst dmOne dcShared 0 true).1.mpr (by decide),
   (C3_disjointness_check hConst dmOne dcOne 0 true).2.1 (by decide)⟩

/-- C4: Reconciliation join correctness.  For disjoint catalogs with
duplicate-free paths, reconcile returns a list that contains exactly one
MatchRow for every pair of a surviving (filtered, readable) client record
and a surviving master record sharing size and digest, and nothing else;
a client record matching several masters yields one row per master, and a
client record matching none yields no row. -/
theorem C4_reconciliation_join_correct (h : FPath → Option Digest) (dm dc : List Row)
    (ms : Nat) (ov : Bool)
    (hdisj : ¬ ∃ p, p ∈ dm.map (fun r => r.filepath) ∧ p ∈ dc.map (fun r => r.filepath))
    (hmN : (dm.map (fun r => r.filepath)).Nodup)
    (hcN : (dc.map (fun r => r.filepath)).Nodup) :
    ∃ L, find_issues_master_client h dm dc ms ov = .ok L ∧
      (∀ mr, mr ∈ L ↔ ∃ c m, c ∈ rec_hashed h dc ms ov ∧ m ∈ rec_hashed h dm ms ov ∧
        m.1.size = c.1.size ∧ m.2 = c.2 ∧ mr = mkMatch c m) ∧
      (∀ c m, c ∈ rec_hashed h dc ms ov → m ∈ rec_hashed h dm ms ov →
        m.1.size = c.1.size → m.2 = c.2 → L.count (mkMatch c m) = 1) := by
  refine ⟨reconcile_baseline h dm dc ms ov,
    reconcile_eq_baseline h dm dc ms ov ((sharedPaths_length_zero_iff dm dc).mpr hdisj),
    fun mr => by unfold reconcile_baseline; exact mem_joinRows _ _ mr, ?_⟩
  intro c m hcm hmm h1 h2
  have hnodup : (reconcile_baseline h dm dc ms ov).Nodup := by
    unfold reconcile_baseline
    exact joinRows_nodup _ _ (rec_hashed_paths_nodup h dc ms ov hcN)
      (rec_hashed_paths_nodup h dm ms ov hmN)
  have hmem : mkMatch c m ∈ reconcile_baseline h dm dc ms ov := by
    unfold reconcile_baseline
    exact (mem_joinRows _ _ _).mpr ⟨c, m, hcm, hmm, h1, h2, rfl⟩
  exact List.count_eq_one_of_mem hnodup hmem

/-- Witness for C4 at concrete one-file catalogs with matching content. -/
theorem C4_witness :
    ∃ L, find_issues_master_client hConst dmOne dcOne 0 true = .ok L ∧
      (∀ mr, mr ∈ L ↔ ∃ c m, c ∈ rec_hashed hConst dcOne 0 true ∧
        m ∈ rec_hashed hConst dmOne 0 true ∧
        m.1.size = c.1.size ∧ m.2 = c.2 ∧ mr = mkMatch c m) ∧
      (∀ c m, c ∈ rec_hashed hConst dcOne 0 true → m ∈ rec_hashed hConst dmOne 0 true →
        m.1.size = c.1.size → m.2 = c.2 → L.count (mkMatch c m) = 1) :=
  C4_reconciliation_join_correct hConst dmOne dcOne 0 true (by decide) (by decide) (by decide)

/-- C5: Unreadable files are excluded conservatively.  A path whose hash
is absent never appears among the members of any emitted DuplicateGroup,
and neither side of any returned ReconciliationMatch has an absent hash. -/
theorem C5_unreadable_excluded (h : FPath → Option Digest) (df dm dc : List Row)
    (ms : Nat) (ov : Bool) :
    (∀ g p, g ∈ find_issues_pandas h df → p ∈ g.filepaths → (h p).isSome = true) ∧
    (∀ L mr, find_issues_master_client h dm dc ms ov = .ok L → mr ∈ L →
      (h mr.filepath).isSome = true ∧ (h mr.filepath_master).isSome = true) := by
  constructor
  · intro g p hg hp
    have hg' : g ∈ emitGroups (hashPairs h (fip_sizeFiltered df)) := hg
    rcases (mem_emitGroups _ g).mp hg' with ⟨k, ⟨p0, hp0, hs0, hd0, hk0⟩, hbig, rfl⟩
    rcases member_key_fact h df k p hp with ⟨r, _, _, _, hhp⟩
    rw [hhp, ← hk0]
    exact hd0
  · intro L mr hok hmr
    by_cases hsh : (sharedPaths dm dc).length = 0
    · rw [reconcile_eq_baseline h dm dc ms ov hsh] at hok
      have hL : L = reconcile_baseline h dm dc ms ov := (Except.ok.inj hok).symm
      subst hL
      have hmr' : mr ∈ joinRows (rec_hashed h dc ms ov) (rec_hashed h dm ms ov) := hmr
      rcases (mem_joinRows _ _ mr).mp hmr' with ⟨c, m, hcm, hmm, h1, h2, rfl⟩
      rcases (mem_rec_hashed h dc ms ov c).mp hcm with ⟨hc1, hc2, hc3⟩
      rcases (mem_rec_hashed h dm ms ov m).mp hmm with ⟨hm1, hm2, hm3⟩
      constructor
      · show (h c.1.filepath).isSome = true
        rw [← hc2]
        exact hc3
      · show (h m.1.filepath).isSome = true
        rw [← hm2]
        exact hm3
    · unfold find_issues_master_client at hok
      rw [if_pos (by omega)] at hok
      exact Except.noConfusion hok

/-- Witness for C5: the members and both match sides of the concrete runs
have present hashes. -/
theorem C5_witness :
    (hConst pA).isSome = true ∧
    (hConst matchCM.filepath).isSome = true ∧ (hConst matchCM.filepath_master).isSome = true :=
  ⟨(C5_unreadable_excluded hConst dfPair dmOne dcOne 0 true).1 grpAB pA (by decide) (by decide),
   (C5_unreadable_excluded hConst dfPair dmOne dcOne 0 true).2 [matchCM] matchCM rfl
     (by decide)⟩

/-- C6 counterexample: find_issues_pandas takes no min_size or
only_visible flag.  At min_size 5 the spec pipeline drops the two size-1
duplicates of the concrete catalog while the source function still
reports them, so no behavior of the source realizes the claimed flag. -/
theorem C6_counterexample :
    find_issues_pandas hConst dfPair ≠ find_duplicates_spec hConst dfPair 5 true := by
  decide

/-- C6 amended: find_issues_pandas takes no flags; it behaves exactly as
the claimed pipeline at the defaults min_size = 0 and only_visible =
true, keeping the visible records (size-absent records fall out at the
bucketing stage rather than in the initial filter). -/
theorem C6_flags_fixed_at_defaults (h : FPath → Option Digest) (df : List Row) :
    find_issues_pandas h df = find_duplicates_spec h df 0 true :=
  (find_duplicates_spec_defaults h df).symm

/-- C7: Singleton size-buckets are never hashed.  For a catalog with
duplicate-free paths, a record reaches the hasher exactly when it is
visible and its size bucket among the visible records has cardinality at
least two. -/
theorem C7_singleton_buckets_never_hashed (h : FPath → Option Digest) (df : List Row)
    (hnd : (df.map (fun r => r.filepath)).Nodup) (r : Row) :
    (r, h r.filepath) ∈ fip_hashed h df ↔
      r ∈ fip_visible df ∧ ∃ s, r.size = some s ∧
        1 < (sizeBucket (fip_visible df) s).length := by
  rw [mem_fip_hashed_iff, mem_fip_sizeFiltered_iff]
  constructor
  · rintro ⟨h1, s, hs, hbig⟩
    rw [nuniqueSize_eq_bucket_length df hnd s] at hbig
    exact ⟨h1, s, hs, hbig⟩
  · rintro ⟨h1, s, hs, hbig⟩
    rw [← nuniqueSize_eq_bucket_length df hnd s] at hbig
    exact ⟨h1, s, hs, hbig⟩

/-- Witness for C7 at the concrete two-file catalog. -/
theorem C7_witness :
    (rowA, hConst rowA.filepath) ∈ fip_hashed hConst dfPair ↔
      rowA ∈ fip_visible dfPair ∧ ∃ s, rowA.size = some s ∧
        1 < (sizeBucket (fip_visible dfPair) s).length :=
  C7_singleton_buckets_never_hashed hConst dfPair (by decide) rowA

/-- C8: Visibility classification order.  The classifier scans the path
components from the leaf toward the root and returns the rule value of
the first (leaf-most) matching component, visible when none matches; a
VCS marker nested inside a hidden directory is classified git, not
hidden. -/
theorem C8_visibility_first_match (path : FPath) :
    (∀ pre c post v, split_path path = pre ++ c :: post →
      (∀ c' ∈ post, componentRule c' = none) → componentRule c = some v →
      file_visibility path = v) ∧
    ((∀ c ∈ split_path path, componentRule c = none) →
      file_visibility path = "visible".toList) ∧
    file_visibility ".hid/.git/f".toList = "git".toList := by
  refine ⟨?_, ?_, by decide⟩
  · intro pre c post v hsplit hpost hc
    unfold file_visibility
    rw [hsplit, List.reverse_append, List.reverse_cons, List.append_assoc,
      visibilityLoop_append_none post.reverse _
        (fun c' hc' => hpost c' (List.mem_reverse.mp hc'))]
    exact visibilityLoop_cons_some c pre.reverse v hc
  · intro hall
    unfold file_visibility
    exact visibilityLoop_eq_visible _ (fun c hc => hall c (List.mem_reverse.mp hc))

/-- Witness for C8 at concrete paths. -/
theorem C8_witness :
    file_visibility "a/.git/b".toList = "git".toList ∧
    file_visibility "x/y".toList = "visible".toList :=
  ⟨(C8_visibility_first_match "a/.git/b".toList).1 ["a".toList] ".git".toList ["b".toList]
      "git".toList (by decide) (by decide) (by decide),
   (C8_visibility_first_match "x/y".toList).2.1 (by decide)⟩

/-- C9: Hasher failure contract.  hash_MD5 is total: on a failing read it
returns an absent digest together with the printed diagnostic, and on a
successful read it returns the digest of the streamed content with no
diagnostic; no exception propagates to the caller. -/
theorem C9_hasher_failure_contract (md5 : List Nat → Digest)
    (fs : FPath → Except (List Char) (List Nat)) (path : FPath) :
    (∀ e, fs path = .error e → hash_MD5 md5 fs path = (none, [e])) ∧
    (∀ content, fs path = .ok content →
      hash_MD5 md5 fs path = (some (md5 content), [])) := by
  constructor
  · intro e he
    unfold hash_MD5
    rw [he]
  · intro content hc
    unfold hash_MD5
    rw [hc]

/-- Witness for C9 on the concrete one-file filesystem. -/
theorem C9_witness :
    hash_MD5 md5Const fsOne pB = (none, ["boom".toList]) ∧
    hash_MD5 md5Const fsOne pA = (some (md5Const [1, 2]), []) :=
  ⟨(C9_hasher_failure_contract md5Const fsOne pB).1 "boom".toList rfl,
   (C9_hasher_failure_contract md5Const fsOne pA).2 [1, 2] rfl⟩

/-- C10 counterexample: with two records sharing the path pA, the catalog
keeps the record of size 1 seen first, not the record of size 2 seen
last as the claim predicts (pandas drop_duplicates defaults to keeping
the first occurrence). -/
theorem C10_counterexample :
    (main_pandas [(pA, some 1), (pA, some 2)]).map (fun r => r.size) = [some 1] ∧
    (main_pandas [(pA, some 1), (pA, some 2)]).map (fun r => r.size) ≠ [some 2] := by
  constructor
  · decide
  · decide

/-- C10 amended: the catalog builder de-duplicates by filepath and keeps,
for each path, the FIRST record seen; the resulting catalog has
duplicate-free paths and every retained record comes from the input. -/
theorem C10_dedup_keeps_first_seen (files : List (FPath × Option Nat)) (p : FPath) :
    ((main_pandas files).map (fun r => r.filepath)).Nodup ∧
    (main_pandas files).find? (fun r => decide (r.filepath = p)) =
      (files.find? (fun x => decide (x.1 = p))).map mkRow ∧
    (∀ r, r ∈ main_pandas files → (r.filepath, r.size) ∈ files) :=
  ⟨main_pandas_paths_nodup files, main_pandas_find? files p,
   fun r hr => mem_main_pandas files r hr⟩

/-- Witness for the amended C10 at a concrete duplicated input. -/
theorem C10_witness :
    ((main_pandas [(pA, some 1), (pA, some 2)]).map (fun r => r.filepath)).Nodup ∧
    (main_pandas [(pA, some 1), (pA, some 2)]).find? (fun r => decide (r.filepath = pA)) =
      (([(pA, some 1), (pA, some 2)] : List (FPath × Option Nat)).find?
        (fun x => decide (x.1 = pA))).map mkRow ∧
    (∀ r, r ∈ main_pandas [(pA, some 1), (pA, some 2)] →
      (r.filepath, r.size) ∈ [(pA, some 1), (pA, some 2)]) :=
  C10_dedup_keeps_first_seen [(pA, some 1), (pA, some 2)] pA

end HDC
